import Mathlib

/-!
Verification of the GLib `GArray` growable-array engine (`glib/garray.c`) and
the durable file writer `g_file_set_contents_full` (`glib/gfileutils.c`),
via a shallow embedding of the C sources.  The embedding targets an LP64
POSIX platform: `guint` is 32 bits, `gsize` is 64 bits, `G_OS_WIN32` is
undefined and `HAVE_FSYNC` is defined.  Machine integers are modelled as
`Nat` with explicit wrap-around only where the C code can actually wrap.
-/

/-- `G_MAXUINT`: the largest `guint` (32-bit) value. -/
def G_MAXUINT : Nat := 2 ^ 32 - 1

/-- `G_MAXSIZE`: the largest `gsize` (64-bit) value. -/
def G_MAXSIZE : Nat := 2 ^ 64 - 1

/-- `MIN_ARRAY_SIZE` (garray.c:50): the minimum byte size of an array block. -/
def MIN_ARRAY_SIZE : Nat := 16

/-- Subtraction of `guint` values as C computes it: wrapping modulo `2^32`.
Faithful for minuends below `2^32`. -/
def guintSub (a b : Nat) : Nat := (a + 2 ^ 32 - b % 2 ^ 32) % 2 ^ 32

/-- Doubling loop underlying `g_nearest_pow`: starting from the power of two
`acc`, double until reaching at least `n` (`fuel` only bounds the recursion
and is chosen large enough to never be exhausted first). -/
def g_nearest_pow_go (n : Nat) : Nat → Nat → Nat
  | acc, 0 => acc
  | acc, fuel + 1 => if n ≤ acc then acc else g_nearest_pow_go n (2 * acc) fuel

/-- Modelled from the spec: `g_nearest_pow` lives in `gutilsprivate.h`, which
is not among the sources here.  Per the spec it returns "the next
power-of-two number of bytes" greater than or equal to its argument, i.e.
the least power of two that is at least `n` (see `g_nearest_pow_ge`,
`g_nearest_pow_min` and `g_nearest_pow_pow` below). -/
def g_nearest_pow (n : Nat) : Nat := g_nearest_pow_go n 1 n

/-- Model of `struct _GRealArray` (garray.c:63).  The raw `data` block is
modelled by `dataNull` (whether the `data` pointer is NULL) together with
`elts`, the list of the `len` live elements, so `len` is `elts.length`;
`allocBytes` is the byte size of the heap block (0 when `data` is NULL).
Uninitialised slots between `len` and `elt_capacity` and the terminating
zero element are not modelled as content.  Element payloads are modelled as
`Int`.  `hasClearFunc` records whether a `clear_func` is set. -/
structure GRealArray where
  elts : List Int
  dataNull : Bool
  allocBytes : Nat
  elt_capacity : Nat
  elt_size : Nat
  zero_terminated : Bool
  clear : Bool
  hasClearFunc : Bool
  ref_count : Nat
  deriving Repr, DecidableEq

/-- The `zero_terminated` bitfield read as the number 0 or 1, as C does. -/
def ztNat (a : GRealArray) : Nat := if a.zero_terminated then 1 else 0

/-- The `max_len` bound computed by `g_array_maybe_expand` (garray.c:1072):
`MIN (G_MAXSIZE / 2 / array->elt_size, G_MAXUINT) - array->zero_terminated`. -/
def maxLen (a : GRealArray) : Nat :=
  min (G_MAXSIZE / 2 / a.elt_size) G_MAXUINT - ztNat a

/-- Model of `g_array_maybe_expand` (garray.c:1061).  `none` models the fatal
`g_error` abort on overflow.  `g_realloc` is modelled as always succeeding:
it aborts the process on allocation failure and never returns NULL for a
non-zero size (and `want_alloc >= MIN_ARRAY_SIZE > 0`).  The
`g_mem_gc_friendly` scrubbing only touches bytes beyond `len`, which the
model does not represent.  After the overflow guard passes, `want_len` and
`elt_size * want_len` cannot wrap, so plain `Nat` arithmetic is faithful. -/
def g_array_maybe_expand (a : GRealArray) (len : Nat) : Option GRealArray :=
  if guintSub (maxLen a) a.elts.length < len then
    none
  else
    let want_len := a.elts.length + len + ztNat a
    if want_len > a.elt_capacity then
      let want_alloc := max (g_nearest_pow (a.elt_size * want_len)) MIN_ARRAY_SIZE
      some { a with dataNull := false, allocBytes := want_alloc,
                    elt_capacity := min (want_alloc / a.elt_size) G_MAXUINT }
    else
      some a

/-- Model of `g_array_sized_new` (garray.c:338).  `none` models the
`g_return_val_if_fail` NULL return for `elt_size = 0` and the abort case of
`g_array_maybe_expand`.  On LP64 the `elt_size <= G_MAXSIZE / 2 - 1` check
is compiled out (`UINT_WIDTH / 8 < GLIB_SIZEOF_SIZE_T`), but `elt_size` is a
`guint` parameter, so values above `G_MAXUINT` are unrepresentable. -/
def g_array_sized_new (zero_terminated clear : Bool) (elt_size reserved_size : Nat) :
    Option GRealArray :=
  if elt_size = 0 ∨ G_MAXUINT < elt_size then none
  else
    let a : GRealArray :=
      { elts := [], dataNull := true, allocBytes := 0, elt_capacity := 0,
        elt_size := elt_size, zero_terminated := zero_terminated, clear := clear,
        hasClearFunc := false, ref_count := 1 }
    if a.zero_terminated ∨ reserved_size ≠ 0 then
      g_array_maybe_expand a reserved_size
    else
      some a

/-- An observable side effect of an array operation: `clear i x` is an
invocation of the registered `clear_func` on the element `x` living at index
`i`; `freeSeg` is the `g_free (array->data)` releasing the block. -/
inductive Ev where
  | clear (i : Nat) (x : Int)
  | freeSeg
  deriving Repr, DecidableEq

/-- Model of `g_array_append_vals` (garray.c:595). -/
def g_array_append_vals (a : GRealArray) (data : List Int) : Option GRealArray :=
  if data.length = 0 then some a
  else
    match g_array_maybe_expand a data.length with
    | none => none
    | some a1 => some { a1 with elts := a1.elts ++ data }

/-- Model of `g_array_prepend_vals` (garray.c:654). -/
def g_array_prepend_vals (a : GRealArray) (data : List Int) : Option GRealArray :=
  if data.length = 0 then some a
  else
    match g_array_maybe_expand a data.length with
    | none => none
    | some a1 => some { a1 with elts := data ++ a1.elts }

/-- Model of `g_array_remove_range` (garray.c:880).  A failed
`g_return_val_if_fail` precondition returns with the array unmodified.
Also returns the `clear_func` invocations performed. -/
def g_array_remove_range (a : GRealArray) (index_ length : Nat) :
    GRealArray × List Ev :=
  if a.elts.length < index_ ∨ G_MAXUINT - length < index_ ∨
      a.elts.length < index_ + length then
    (a, [])
  else if length = 0 then (a, [])
  else
    let evs := if a.hasClearFunc then
        (List.range length).map (fun i => Ev.clear (index_ + i) (a.elts.getD (index_ + i) 0))
      else []
    ({ a with elts := a.elts.take index_ ++ a.elts.drop (index_ + length) }, evs)

/-- Model of `g_array_remove_index` (garray.c:799). -/
def g_array_remove_index (a : GRealArray) (index_ : Nat) : GRealArray × List Ev :=
  if a.elts.length ≤ index_ then (a, [])
  else
    let evs := if a.hasClearFunc then [Ev.clear index_ (a.elts.getD index_ 0)] else []
    ({ a with elts := a.elts.take index_ ++ a.elts.drop (index_ + 1) }, evs)

/-- Model of `g_array_remove_index_fast` (garray.c:839): the last element is
copied into the removed slot. -/
def g_array_remove_index_fast (a : GRealArray) (index_ : Nat) : GRealArray × List Ev :=
  if a.elts.length ≤ index_ then (a, [])
  else
    let evs := if a.hasClearFunc then [Ev.clear index_ (a.elts.getD index_ 0)] else []
    let elts2 := if index_ = a.elts.length - 1 then a.elts.dropLast
      else (a.elts.set index_ (a.elts.getD (a.elts.length - 1) 0)).dropLast
    ({ a with elts := elts2 }, evs)

/-- Model of `g_array_set_size` (garray.c:763).  Newly grown slots whose
contents the C code leaves undefined (when the `clear` flag is unset) are
modelled as zero, like cleared slots; no claim depends on gap contents. -/
def g_array_set_size (a : GRealArray) (length : Nat) : Option (GRealArray × List Ev) :=
  if a.elts.length < length then
    match g_array_maybe_expand a (length - a.elts.length) with
    | none => none
    | some a1 =>
        some ({ a1 with elts := a1.elts ++ List.replicate (length - a1.elts.length) 0 }, [])
  else if length < a.elts.length then
    some (g_array_remove_range a length (a.elts.length - length))
  else
    some (a, [])

/-- Model of `g_array_insert_vals` (garray.c:717): an index beyond the end
over-allocates, grows via `g_array_set_size` and appends; otherwise existing
elements from `index_` are shifted up. -/
def g_array_insert_vals (a : GRealArray) (index_ : Nat) (data : List Int) :
    Option GRealArray :=
  if data.length = 0 then some a
  else if a.elts.length ≤ index_ then
    match g_array_maybe_expand a (index_ - a.elts.length + data.length) with
    | none => none
    | some a1 =>
        match g_array_set_size a1 index_ with
        | none => none
        | some (a2, _) => g_array_append_vals a2 data
  else
    match g_array_maybe_expand a data.length with
    | none => none
    | some a1 => some { a1 with elts := a1.elts.take index_ ++ data ++ a1.elts.drop index_ }

/-- Model of `g_array_steal` (garray.c:301): returns
`(segment, out_len, array, events)` where `segment` is the stolen `data`
pointer (`none` models NULL) and the event list is empty because the function
never calls `clear_func`. -/
def g_array_steal (a : GRealArray) :
    Option (List Int) × Nat × GRealArray × List Ev :=
  ((if a.dataNull then none else some a.elts), a.elts.length,
   { a with elts := [], dataNull := true, allocBytes := 0, elt_capacity := 0 }, [])

/-- Model of `g_array_ref` (garray.c:434). -/
def g_array_ref (a : GRealArray) : GRealArray :=
  { a with ref_count := a.ref_count + 1 }

/-- Model of `array_free` (garray.c:535): returns `(segment, wrapper, events)`.
`wrapper = none` models `g_slice_free1` releasing the `GRealArray` struct
itself.  With `FREE_SEGMENT`, `clear_func` (when set) runs over every live
element in index order and then the block is freed (`freeSeg`). -/
def array_free (a : GRealArray) (free_segment preserve_wrapper : Bool) :
    Option (List Int) × Option GRealArray × List Ev :=
  let evs : List Ev :=
    if free_segment then
      (if a.hasClearFunc then a.elts.enum.map (fun p => Ev.clear p.1 p.2) else [])
        ++ [Ev.freeSeg]
    else []
  let segment : Option (List Int) :=
    if free_segment then none else (if a.dataNull then none else some a.elts)
  let wrapper : Option GRealArray :=
    if preserve_wrapper then
      some { a with elts := [], dataNull := true, allocBytes := 0, elt_capacity := 0 }
    else none
  (segment, wrapper, evs)

/-- Model of `g_array_unref` (garray.c:464): dropping the last reference frees
segment and wrapper. -/
def g_array_unref (a : GRealArray) : Option GRealArray × List Ev :=
  if a.ref_count = 1 then
    let r := array_free { a with ref_count := 0 } true false
    (r.2.1, r.2.2)
  else
    (some { a with ref_count := a.ref_count - 1 }, [])

/-- Model of `g_array_free` (garray.c:517): when other references remain, the
wrapper is preserved (and reset); the segment is freed or returned per
`free_segment`. -/
def g_array_free (a : GRealArray) (free_segment : Bool) :
    Option (List Int) × Option GRealArray × List Ev :=
  array_free { a with ref_count := a.ref_count - 1 } free_segment (1 < a.ref_count)

/-- Model of the bisection loop of `g_array_binary_search` (garray.c:1036).
`fuel` only bounds the recursion; the interval `right - left` shrinks
strictly every iteration, so any `fuel` exceeding the initial interval size
computes exactly the C loop's result. -/
def binarySearchLoop (a : GRealArray) (cmp : Int → Int → Int) (target : Int)
    (left right fuel : Nat) : Option Nat :=
  match fuel with
  | 0 => none
  | fuel' + 1 =>
    if left ≤ right then
      let middle := left + (right - left) / 2
      let val := cmp (a.elts.getD middle 0) target
      if val = 0 then some middle
      else if val < 0 then binarySearchLoop a cmp target (middle + 1) right fuel'
      else if 0 < middle then binarySearchLoop a cmp target left (middle - 1) fuel'
      else none
    else none

/-- Model of `g_array_binary_search` (garray.c:1017): `some i` models a TRUE
return with `*out_match_index = i`; `none` models a FALSE return. -/
def g_array_binary_search (a : GRealArray) (cmp : Int → Int → Int) (target : Int) :
    Option Nat :=
  if a.elts.length ≠ 0 then
    binarySearchLoop a cmp target 0 (a.elts.length - 1) (a.elts.length + 1)
  else none

/-- Modelled from the spec: `g_sort_array` lives in `glib/gqsort.c`, which is
not among the sources here.  Per the spec it "MUST be a stable sort (ties
preserve relative input order) ... merge sort or a stabilized
comparator-augmented quicksort are acceptable"; modelled as a stable merge
sort, with the qsort-style comparator `cmp` inducing the ordering
`cmp x y <= 0`. -/
def g_sort_array (l : List Int) (cmp : Int → Int → Int) : List Int :=
  l.mergeSort (fun x y => decide (cmp x y ≤ 0))

/-- Model of `g_array_sort` (garray.c:929). -/
def g_array_sort (a : GRealArray) (cmp : Int → Int → Int) : GRealArray :=
  if 0 < a.elts.length then { a with elts := g_sort_array a.elts cmp } else a

/-- Model of `g_array_sort_with_data` (garray.c:961): the comparator receives
an extra user-data argument. -/
def g_array_sort_with_data {β : Type} (a : GRealArray)
    (cmp : Int → Int → β → Int) (user_data : β) : GRealArray :=
  if 0 < a.elts.length then
    { a with elts := a.elts.mergeSort (fun x y => decide (cmp x y user_data ≤ 0)) }
  else a

/-- One invocation of the `GArray` mutating API, for reachability. -/
inductive Op where
  | append (xs : List Int)
  | prepend (xs : List Int)
  | insert (i : Nat) (xs : List Int)
  | removeIndex (i : Nat)
  | removeIndexFast (i : Nat)
  | removeRange (i n : Nat)
  | setSize (n : Nat)
  | steal
  | ref
  | unref
  | free (free_segment : Bool)
  | sort (cmp : Int → Int → Int)

/-- One step of the `GArray` API on a live array; `none` when the operation
aborts the process (`g_error` on overflow) or destroys the array (last
reference dropped, wrapper freed). -/
def applyOp (a : GRealArray) : Op → Option GRealArray
  | .append xs => g_array_append_vals a xs
  | .prepend xs => g_array_prepend_vals a xs
  | .insert i xs => g_array_insert_vals a i xs
  | .removeIndex i => some (g_array_remove_index a i).1
  | .removeIndexFast i => some (g_array_remove_index_fast a i).1
  | .removeRange i n => some (g_array_remove_range a i n).1
  | .setSize n => (g_array_set_size a n).map Prod.fst
  | .steal => some (g_array_steal a).2.2.1
  | .ref => some (g_array_ref a)
  | .unref => (g_array_unref a).1
  | .free fs => (g_array_free a fs).2.1
  | .sort cmp => some (g_array_sort a cmp)

/-- The arrays reachable through the public `GArray` API, starting from
`g_array_sized_new` (`g_array_new` delegates to it with `reserved_size = 0`). -/
inductive Reachable : GRealArray → Prop where
  | create {zt clear : Bool} {es rs : Nat} {a : GRealArray} :
      g_array_sized_new zt clear es rs = some a → Reachable a
  | step {a a' : GRealArray} {op : Op} :
      Reachable a → applyOp a op = some a' → Reachable a'

/-- The filesystem state visible to `g_file_set_contents_full`: the byte
contents of the target path and of the sibling temporary file created by
`g_mkstemp_full` (`none` models a file that does not exist). -/
structure FS where
  target : Option (List Nat)
  tmp : Option (List Nat)
  deriving Repr, DecidableEq

/-- The `GFileSetContentsFlags` bits (`G_FILE_SET_CONTENTS_NONE` is all three
unset). -/
structure SetContentsFlags where
  consistent : Bool
  durable : Bool
  onlyExisting : Bool
  deriving Repr, DecidableEq

/-- Failure oracle: which syscall of one `g_file_set_contents_full` invocation
fails (`noFail`: every syscall succeeds).  `write k` models the write loop
failing with only `k` bytes transferred.  Failure points that the taken code
path never reaches behave like `noFail`. -/
inductive FailPoint where
  | noFail
  | mkstemp
  | chmod
  | write (k : Nat)
  | fsyncData
  | closeFd
  | rename
  | openDirect
  | truncateDirect
  deriving Repr, DecidableEq

/-- Which `fsync` calls a run performed: on the written file's data, and on
the containing directory after the rename. -/
structure SyncLog where
  dataFsync : Bool
  dirFsync : Bool
  deriving Repr, DecidableEq

/-- Outcome of `g_lstat` on the target, as `fd_should_be_fsynced` inspects
it. -/
inductive LstatResult where
  | found (size : Nat)
  | enoent
  | err
  deriving Repr, DecidableEq

/-- The `g_lstat` outcome our filesystem model produces (it has no failing
stat calls). -/
def lstatOf (fs : FS) : LstatResult :=
  match fs.target with
  | some c => .found c.length
  | none => .enoent

/-- Model of `fd_should_be_fsynced` (gfileutils.c:1086), with `HAVE_FSYNC`. -/
def fd_should_be_fsynced (flags : SetContentsFlags) (st : LstatResult) : Bool :=
  if (flags.consistent || flags.durable) && flags.onlyExisting then
    match st with
    | .found size => decide (0 < size)
    | .enoent => false
    | .err => true
  else
    flags.consistent || flags.durable

/-- Contents of `file` after writing `bytes` through a file descriptor
positioned at offset `off`. -/
def writeAt (file : List Nat) (off : Nat) (bytes : List Nat) : List Nat :=
  file.take off ++ bytes ++ file.drop (off + bytes.length)

/-- Model of `write_to_file` (gfileutils.c:1158): the fd is at offset 0 on the
just-created (or just-truncated) file whose current contents are `file`.
Returns `(ok, newContents, didFsyncData)`.  The short-write/`EINTR` retry
loop transfers all of `bytes` unless the oracle fails it after `k` bytes;
`fsync` runs only when `do_fsync`; the fd is closed in every case. -/
def write_to_file (file : List Nat) (bytes : List Nat) (do_fsync : Bool)
    (fp : FailPoint) : Bool × List Nat × Bool :=
  match fp with
  | .write k => (false, writeAt file 0 (bytes.take k), false)
  | .fsyncData =>
      if do_fsync then (false, writeAt file 0 bytes, false)
      else (true, writeAt file 0 bytes, false)
  | .closeFd => (false, writeAt file 0 bytes, do_fsync)
  | _ => (true, writeAt file 0 bytes, do_fsync)

/-- Model of the `G_FILE_SET_CONTENTS_CONSISTENT` branch of
`g_file_set_contents_full` (gfileutils.c:1358-1464) on POSIX: mkstemp a
sibling temp file, copy the target's permission bits when it exists, write
the bytes (fsync per `fd_should_be_fsynced`), rename over the target
(`rename_file`, gfileutils.c:1035, fsyncs the directory when its `do_fsync`
argument is set), unlinking the temp file on any failure.  Returns
`(retval, filesystem, fsyncs performed)`. -/
def set_contents_consistent (fs : FS) (bytes : List Nat)
    (flags : SetContentsFlags) (fp : FailPoint) : Bool × FS × SyncLog :=
  if fp = .mkstemp then (false, fs, ⟨false, false⟩)
  else if fs.target.isSome ∧ fp = .chmod then
    (false, { fs with tmp := none }, ⟨false, false⟩)
  else
    let do_fsync := fd_should_be_fsynced flags (lstatOf fs)
    let w := write_to_file [] bytes do_fsync fp
    if w.1 = false then
      (false, { fs with tmp := none }, ⟨w.2.2, false⟩)
    else if fp = .rename then
      (false, { fs with tmp := none }, ⟨w.2.2, false⟩)
    else
      (true, { target := some w.2.1, tmp := none }, ⟨w.2.2, do_fsync⟩)

/-- Model of the direct (non-CONSISTENT) branch of `g_file_set_contents_full`
(gfileutils.c:1465-1522): `g_open` with `O_CREAT` and no `O_TRUNC` creates
the target empty when missing; the explicit `truncate_file (fd, 0)`
(gfileutils.c:1127) then empties an existing target before the write.  The
symlink `O_NOFOLLOW` retry is not modelled (the filesystem model has no
symlinks). -/
def set_contents_direct (fs : FS) (bytes : List Nat)
    (flags : SetContentsFlags) (fp : FailPoint) : Bool × FS × SyncLog :=
  if fp = .openDirect then (false, fs, ⟨false, false⟩)
  else
    let f0 : List Nat := fs.target.getD []
    let do_fsync := fd_should_be_fsynced flags (lstatOf { fs with target := some f0 })
    if fp = .truncateDirect then (false, { fs with target := some f0 }, ⟨false, false⟩)
    else
      let w := write_to_file (f0.take 0) bytes do_fsync fp
      (w.1, { fs with target := some w.2.1 }, ⟨w.2.2, false⟩)

/-- Model of `g_file_set_contents_full` (gfileutils.c:1328).  `contents = none`
models a NULL pointer and the list models the byte buffer; `length = -1`
selects the NUL-terminated-string case, where `strlen` is the number of
bytes before the first zero.  The `g_return_val_if_fail` precondition
failures return FALSE without touching the filesystem. -/
def g_file_set_contents_full (fs : FS) (contents : Option (List Nat)) (length : Int)
    (flags : SetContentsFlags) (fp : FailPoint) : Bool × FS × SyncLog :=
  if contents = none ∧ length ≠ 0 then (false, fs, ⟨false, false⟩)
  else if length < -1 then (false, fs, ⟨false, false⟩)
  else
    let buf := contents.getD []
    let bytes := if length < 0 then buf.takeWhile (fun b => b != 0)
      else buf.take length.toNat
    if flags.consistent then set_contents_consistent fs bytes flags fp
    else set_contents_direct fs bytes flags fp

/-- The C4/C7 well-formedness invariant of a live `GRealArray`, strengthened
with the bookkeeping facts (`elt_size` is a positive `guint`, `len` stays
within `max_len`) that make it inductive. -/
def WF (a : GRealArray) : Prop :=
  1 ≤ a.elt_size ∧ a.elt_size ≤ G_MAXUINT ∧
  a.elts.length ≤ maxLen a ∧
  (a.dataNull = true → a.elts = [] ∧ a.elt_capacity = 0) ∧
  (a.dataNull = false → a.elts.length + ztNat a ≤ a.elt_capacity)

/-- A concrete sorted `GArray` of three equal `gint` elements, as built by
`g_array_sized_new (FALSE, FALSE, 4, 3)` plus three appends. -/
def arr000 : GRealArray :=
  { elts := [0, 0, 0], dataNull := false, allocBytes := 16, elt_capacity := 4,
    elt_size := 4, zero_terminated := false, clear := false,
    hasClearFunc := false, ref_count := 1 }

/-- A concrete array with a registered `clear_func` and a single reference. -/
def arrClear : GRealArray :=
  { elts := [5, 7], dataNull := false, allocBytes := 16, elt_capacity := 4,
    elt_size := 4, zero_terminated := false, clear := false,
    hasClearFunc := true, ref_count := 1 }

/-- A concrete array at capacity 3 with 3 live elements, about to grow. -/
def arrGrow : GRealArray :=
  { elts := [1, 2, 3], dataNull := false, allocBytes := 12, elt_capacity := 3,
    elt_size := 4, zero_terminated := false, clear := false,
    hasClearFunc := false, ref_count := 1 }

/-- A concrete empty array of byte-sized elements (`elt_size = 1`). -/
def arrByte : GRealArray :=
  { elts := [], dataNull := true, allocBytes := 0, elt_capacity := 0,
    elt_size := 1, zero_terminated := false, clear := false,
    hasClearFunc := false, ref_count := 1 }

/-- A concrete unsorted array of four `gint`s, with a duplicate. -/
def arrSort : GRealArray :=
  { elts := [3, 1, 2, 1], dataNull := false, allocBytes := 16, elt_capacity := 4,
    elt_size := 4, zero_terminated := false, clear := false,
    hasClearFunc := false, ref_count := 1 }

/-- The doubling loop, seeded with a power of two, returns a power of two. -/
theorem g_nearest_pow_go_pow (n i fuel : Nat) :
    ∃ k, g_nearest_pow_go n (2 ^ i) fuel = 2 ^ k := by
  induction fuel generalizing i with
  | zero => exact ⟨i, rfl⟩
  | succ fuel ih =>
    simp only [g_nearest_pow_go]
    split
    · exact ⟨i, rfl⟩
    · have h2 : 2 * 2 ^ i = 2 ^ (i + 1) := by ring
      rw [h2]
      exact ih (i + 1)

/-- With enough fuel, the doubling loop reaches `n`. -/
theorem g_nearest_pow_go_ge {n i fuel : Nat} (h : n ≤ 2 ^ (i + fuel)) :
    n ≤ g_nearest_pow_go n (2 ^ i) fuel := by
  induction fuel generalizing i with
  | zero => simpa using h
  | succ fuel ih =>
    simp only [g_nearest_pow_go]
    split
    · assumption
    · have h2 : 2 * 2 ^ i = 2 ^ (i + 1) := by ring
      rw [h2]
      exact ih (by have : i + 1 + fuel = i + (fuel + 1) := by omega
                   rw [this]; exact h)

/-- The doubling loop never overshoots a power of two that is already
sufficient. -/
theorem g_nearest_pow_go_min {n i j fuel : Nat} (hi : i ≤ j) (hn : n ≤ 2 ^ j) :
    g_nearest_pow_go n (2 ^ i) fuel ≤ 2 ^ j := by
  induction fuel generalizing i with
  | zero => exact Nat.pow_le_pow_right (by omega) hi
  | succ fuel ih =>
    simp only [g_nearest_pow_go]
    split
    case isTrue => exact Nat.pow_le_pow_right (by omega) hi
    case isFalse hlt =>
      have h2 : 2 * 2 ^ i = 2 ^ (i + 1) := by ring
      rw [h2]
      refine ih ?_
      by_contra hij
      have hji : j < i + 1 := by omega
      have : 2 ^ j ≤ 2 ^ i := Nat.pow_le_pow_right (by omega) (by omega)
      omega

/-- `g_nearest_pow n` is at least `n`. -/
theorem g_nearest_pow_ge (n : Nat) : n ≤ g_nearest_pow n := by
  have h1 : (1 : Nat) = 2 ^ 0 := rfl
  unfold g_nearest_pow
  rw [h1]
  exact g_nearest_pow_go_ge (by simpa using Nat.le_of_lt (Nat.lt_two_pow n))

/-- `g_nearest_pow n` does not exceed any power of two that is at least `n`. -/
theorem g_nearest_pow_min {n j : Nat} (h : n ≤ 2 ^ j) : g_nearest_pow n ≤ 2 ^ j := by
  have h1 : (1 : Nat) = 2 ^ 0 := rfl
  unfold g_nearest_pow
  rw [h1]
  exact g_nearest_pow_go_min (Nat.zero_le j) h

/-- `g_nearest_pow n` is a power of two. -/
theorem g_nearest_pow_pow (n : Nat) : ∃ k, g_nearest_pow n = 2 ^ k := by
  have h1 : (1 : Nat) = 2 ^ 0 := rfl
  unfold g_nearest_pow
  rw [h1]
  exact g_nearest_pow_go_pow n 0 n

/-- C1: on the sorted array `[0, 0, 0]` (built with `cmpint a b = a - b` and
target `0`), `g_array_binary_search` reports the match at index 1 — the
first probed midpoint — and not at index 0, the lowest index among the
equal elements, which its own documentation (garray.c:991) promises. -/
theorem c1_binary_search_not_first :
    g_array_binary_search arr000 (fun x y => x - y) 0 = some 1 ∧
    g_array_binary_search arr000 (fun x y => x - y) 0 ≠ some 0 := by
  decide

/-- Helper for C2: the CONSISTENT code path deletes the temporary file and
leaves the target untouched whenever it returns FALSE. -/
theorem scc_cleanup (fs : FS) (bytes : List Nat) (flags : SetContentsFlags)
    (fp : FailPoint) (fs' : FS) (log : SyncLog) (htmp : fs.tmp = none)
    (h : set_contents_consistent fs bytes flags fp = (false, fs', log)) :
    fs'.tmp = none ∧ fs'.target = fs.target := by
  simp only [set_contents_consistent] at h
  split at h
  · injection h with h1 h2; injection h2 with h3 h4; subst h3; exact ⟨htmp, rfl⟩
  · split at h
    · injection h with h1 h2; injection h2 with h3 h4; subst h3; exact ⟨rfl, rfl⟩
    · split at h
      · injection h with h1 h2; injection h2 with h3 h4; subst h3; exact ⟨rfl, rfl⟩
      · split at h
        · injection h with h1 h2; injection h2 with h3 h4; subst h3; exact ⟨rfl, rfl⟩
        · injection h with h1 h2; cases h1

/-- C2: whenever `g_file_set_contents_full` with
`G_FILE_SET_CONTENTS_CONSISTENT` returns FALSE — whichever step failed: temp
creation, permission copy, write, fsync, close or rename — the temporary
file does not remain and the target file's previous contents are
unchanged. -/
theorem c2_consistent_failure_cleanup (fs : FS) (contents : Option (List Nat))
    (length : Int) (flags : SetContentsFlags) (fp : FailPoint) (fs' : FS)
    (log : SyncLog) (hc : flags.consistent = true) (htmp : fs.tmp = none)
    (h : g_file_set_contents_full fs contents length flags fp = (false, fs', log)) :
    fs'.tmp = none ∧ fs'.target = fs.target := by
  simp only [g_file_set_contents_full, hc, if_true] at h
  split at h
  · injection h with h1 h2; injection h2 with h3 h4; subst h3; exact ⟨htmp, rfl⟩
  · split at h
    · injection h with h1 h2; injection h2 with h3 h4; subst h3; exact ⟨htmp, rfl⟩
    · exact scc_cleanup fs _ flags fp fs' log htmp h

theorem c2_consistent_failure_cleanup_witness :
    (⟨some [97], none⟩ : FS).tmp = none ∧
    g_file_set_contents_full ⟨some [97], none⟩ (some [98, 99]) 2
        ⟨true, false, false⟩ (.write 1) =
      (false, ⟨some [97], none⟩, ⟨false, false⟩) ∧
    (⟨some [97], none⟩ : FS).tmp = none ∧ (⟨some [97], none⟩ : FS).target = some [97] :=
  ⟨rfl, by decide,
   c2_consistent_failure_cleanup ⟨some [97], none⟩ (some [98, 99]) 2
     ⟨true, false, false⟩ (.write 1) ⟨some [97], none⟩ ⟨false, false⟩
     rfl rfl (by decide)⟩

/-- C3 counterexample: with CONSISTENT alone — durability NOT requested — a
fully successful `g_file_set_contents_full` run fsyncs both the temporary
file's data and the containing directory, so neither fsync is conditional
on the durable flag as the claim states. -/
theorem c3_counterexample :
    (g_file_set_contents_full ⟨some [1], none⟩ (some [2]) (-1)
        ⟨true, false, false⟩ .noFail).2.2 = ⟨true, true⟩ ∧
    (⟨true, false, false⟩ : SetContentsFlags).durable = false := by
  decide

/-- C3 (amended): in consistent mode the temp file's data is fsynced exactly
under `fd_should_be_fsynced` — CONSISTENT or DURABLE requested, and, when
ONLY_EXISTING is set, the target existing with non-zero size — and a
successful run fsyncs the containing directory after the rename under
exactly the same condition, while a failed rename fsyncs no directory. -/
theorem c3_fsync_policy (fs : FS) (bytes : List Nat) (flags : SetContentsFlags) :
    (set_contents_consistent fs bytes flags .noFail).2.2 =
      ⟨fd_should_be_fsynced flags (lstatOf fs), fd_should_be_fsynced flags (lstatOf fs)⟩ ∧
    (set_contents_consistent fs bytes flags .rename).2.2.dirFsync = false ∧
    fd_should_be_fsynced flags (lstatOf fs) =
      ((flags.consistent || flags.durable) &&
        (!flags.onlyExisting ||
          (match fs.target with
           | some c => decide (0 < c.length)
           | none => false))) := by
  refine ⟨?_, ?_, ?_⟩
  · simp [set_contents_consistent, write_to_file]
  · simp [set_contents_consistent, write_to_file]
  · rcases flags with ⟨c, d, o⟩
    rcases htarget : fs.target with _ | cs <;>
      cases c <;> cases d <;> cases o <;>
        simp [fd_should_be_fsynced, lstatOf, htarget]

/-- C9: in direct mode (CONSISTENT unset) the target is truncated to zero
length before the write, so each successful write leaves the file holding
exactly the new bytes; in particular writing "abc" and then "de" leaves
"de", not "dec". -/
theorem c9_direct_truncates (fs : FS) (b1 b2 : List Nat) (flags : SetContentsFlags)
    (hc : flags.consistent = false) :
    (g_file_set_contents_full
      (g_file_set_contents_full fs (some b1) (b1.length : Int) flags .noFail).2.1
      (some b2) (b2.length : Int) flags .noFail).2.1.target = some b2 := by
  have key : ∀ (g : FS) (b : List Nat),
      (g_file_set_contents_full g (some b) (b.length : Int) flags .noFail).2.1.target
        = some b := by
    intro g b
    have h1 : ¬ ((b.length : Int) < -1) := by omega
    have h2 : ¬ ((b.length : Int) < 0) := by omega
    simp only [g_file_set_contents_full, hc, Bool.false_eq_true, if_false, h1, h2,
      if_neg, reduceCtorEq, false_and]
    simp [set_contents_direct, write_to_file, writeAt, Int.toNat_natCast]
  rw [key]

theorem c9_direct_truncates_witness :
    ((⟨false, false, false⟩ : SetContentsFlags).consistent = false) ∧
    (g_file_set_contents_full
      (g_file_set_contents_full ⟨none, none⟩ (some [97, 98, 99]) 3
        ⟨false, false, false⟩ .noFail).2.1
      (some [100, 101]) 2 ⟨false, false, false⟩ .noFail).2.1.target = some [100, 101] :=
  ⟨rfl, c9_direct_truncates ⟨none, none⟩ [97, 98, 99] [100, 101] ⟨false, false, false⟩ rfl⟩

/-- C10: `length = -1` writes exactly the `strlen` bytes of the NUL-terminated
buffer; NULL contents with non-zero length, and lengths below -1, are
rejected up front with the filesystem untouched. -/
theorem c10_length_and_preconditions (fs : FS) (buf : List Nat)
    (contents : Option (List Nat)) (length : Int) (flags : SetContentsFlags)
    (fp : FailPoint) :
    (contents = none → length ≠ 0 →
      g_file_set_contents_full fs contents length flags fp = (false, fs, ⟨false, false⟩)) ∧
    (length < -1 →
      g_file_set_contents_full fs contents length flags fp = (false, fs, ⟨false, false⟩)) ∧
    ((g_file_set_contents_full fs (some buf) (-1) flags .noFail).2.1.target =
      some (buf.takeWhile (fun b => b != 0))) := by
  refine ⟨?_, ?_, ?_⟩
  · intro hnone hlen
    simp [g_file_set_contents_full, hnone, hlen]
  · intro hlen
    simp [g_file_set_contents_full, hlen]
  · by_cases hcons : flags.consistent = true
    · simp [g_file_set_contents_full, hcons, set_contents_consistent, write_to_file, writeAt]
    · simp only [Bool.not_eq_true] at hcons
      simp [g_file_set_contents_full, hcons, set_contents_direct, write_to_file, writeAt]

theorem c10_length_and_preconditions_witness :
    (g_file_set_contents_full ⟨none, none⟩ none 5 ⟨true, false, false⟩ .noFail =
      (false, ⟨none, none⟩, ⟨false, false⟩)) ∧
    (g_file_set_contents_full ⟨none, none⟩ (some [1]) (-2) ⟨true, false, false⟩ .noFail =
      (false, ⟨none, none⟩, ⟨false, false⟩)) ∧
    ((g_file_set_contents_full ⟨none, none⟩ (some [100, 101, 0, 55]) (-1)
        ⟨true, false, false⟩ .noFail).2.1.target = some [100, 101]) := by
  refine ⟨?_, ?_, ?_⟩
  · exact (c10_length_and_preconditions ⟨none, none⟩ [] none 5 ⟨true, false, false⟩
      .noFail).1 rfl (by decide)
  · exact (c10_length_and_preconditions ⟨none, none⟩ [] (some [1]) (-2) ⟨true, false, false⟩
      .noFail).2.1 (by decide)
  · exact (c10_length_and_preconditions ⟨none, none⟩ [100, 101, 0, 55] (some [1]) 0
      ⟨true, false, false⟩ .noFail).2.2

/-- C5: when `want_len` exceeds the capacity, `g_array_maybe_expand`
reallocates the block to exactly the least power of two of bytes at least
`want_len * elt_size`, floored at `MIN_ARRAY_SIZE` (16) bytes; when
`want_len` fits the capacity (and the overflow guard does not fire, i.e.
the call returns), nothing changes. -/
theorem c5_expand_policy (a a' : GRealArray) (n : Nat)
    (h : g_array_maybe_expand a n = some a') :
    (a.elt_capacity < a.elts.length + n + ztNat a →
      (∃ k : Nat, a'.allocBytes = max (2 ^ k) MIN_ARRAY_SIZE ∧
        a.elt_size * (a.elts.length + n + ztNat a) ≤ 2 ^ k ∧
        (∀ j : Nat, a.elt_size * (a.elts.length + n + ztNat a) ≤ 2 ^ j → 2 ^ k ≤ 2 ^ j)) ∧
      a'.elt_capacity = min (a'.allocBytes / a.elt_size) G_MAXUINT ∧
      a'.dataNull = false ∧ a'.elts = a.elts ∧ a'.elt_size = a.elt_size ∧
      a'.zero_terminated = a.zero_terminated ∧ a'.ref_count = a.ref_count) ∧
    (a.elts.length + n + ztNat a ≤ a.elt_capacity → a' = a) := by
  simp only [g_array_maybe_expand] at h
  split at h
  · exact absurd h (by simp)
  · split at h
    case isTrue hgrow =>
      injection h with h
      subst h
      constructor
      · intro _
        obtain ⟨k, hk⟩ := g_nearest_pow_pow (a.elt_size * (a.elts.length + n + ztNat a))
        refine ⟨⟨k, by rw [← hk], hk ▸ g_nearest_pow_ge _, ?_⟩, rfl, rfl, rfl, rfl, rfl, rfl⟩
        intro j hj
        exact hk ▸ g_nearest_pow_min hj
      · intro hle
        omega
    case isFalse hngrow =>
      injection h with h
      subst h
      exact ⟨fun hlt => absurd hlt (by omega), fun _ => rfl⟩

theorem c5_expand_policy_witness :
    (arrGrow.elt_capacity < arrGrow.elts.length + 2 + ztNat arrGrow) ∧
    (∃ k : Nat,
      ({ arrGrow with dataNull := false, allocBytes := 32, elt_capacity := 8 } :
          GRealArray).allocBytes = max (2 ^ k) MIN_ARRAY_SIZE ∧
      arrGrow.elt_size * (arrGrow.elts.length + 2 + ztNat arrGrow) ≤ 2 ^ k ∧
      (∀ j : Nat, arrGrow.elt_size * (arrGrow.elts.length + 2 + ztNat arrGrow) ≤ 2 ^ j →
        2 ^ k ≤ 2 ^ j)) ∧
    (g_array_maybe_expand arrGrow 0 = some arrGrow) :=
  ⟨by decide,
   ((c5_expand_policy arrGrow
      { arrGrow with dataNull := false, allocBytes := 32, elt_capacity := 8 } 2
      (by decide)).1 (by decide)).1,
   by decide⟩

/-- `guintSub` agrees with plain subtraction below `2^32`. -/
theorem guintSub_eq {a b : Nat} (hb : b ≤ a) (ha : a < 2 ^ 32) :
    guintSub a b = a - b := by
  unfold guintSub
  have hb32 : b % 2 ^ 32 = b := Nat.mod_eq_of_lt (by omega)
  rw [hb32]
  have hsplit : a + 2 ^ 32 - b = (a - b) + 2 ^ 32 := by omega
  rw [hsplit, Nat.add_mod_right]
  exact Nat.mod_eq_of_lt (by omega)

/-- `max_len` always fits in a `guint`. -/
theorem maxLen_lt {a : GRealArray} : maxLen a < 2 ^ 32 := by
  have hmin : min (G_MAXSIZE / 2 / a.elt_size) G_MAXUINT ≤ G_MAXUINT := Nat.min_le_right _ _
  simp only [maxLen]
  have hU : G_MAXUINT < 2 ^ 32 := by decide
  omega

/-- C6: when `(MIN (G_MAXSIZE/2/elt_size, G_MAXUINT) - zero_terminated) - len`
is less than the number of elements to add, `g_array_maybe_expand` is the
fatal `g_error` abort (modelled `none`) rather than a return; otherwise the
fatal branch is not taken and the call returns normally. -/
theorem c6_overflow_fatal (a : GRealArray) (n : Nat)
    (hlen : a.elts.length ≤ maxLen a) :
    (maxLen a - a.elts.length < n → g_array_maybe_expand a n = none) ∧
    (¬ (maxLen a - a.elts.length < n) → (g_array_maybe_expand a n).isSome = true) := by
  have hg : guintSub (maxLen a) a.elts.length = maxLen a - a.elts.length :=
    guintSub_eq hlen maxLen_lt
  constructor
  · intro hlt
    simp only [g_array_maybe_expand, hg, if_pos hlt]
  · intro hge
    simp only [g_array_maybe_expand, hg, if_neg hge]
    split <;> simp

theorem c6_overflow_fatal_witness :
    (arrByte.elts.length ≤ maxLen arrByte) ∧
    g_array_maybe_expand arrByte (2 ^ 32) = none ∧
    (g_array_maybe_expand arrByte 5).isSome = true :=
  ⟨by decide,
   (c6_overflow_fatal arrByte (2 ^ 32) (by decide)).1 (by decide),
   (c6_overflow_fatal arrByte 5 (by decide)).2 (by decide)⟩

/-- C7: `g_array_steal` hands back the data block and the length, resets the
array to length 0, capacity 0 and NULL data, and performs no `clear_func`
invocation; dropping the last reference of an un-stolen array with a
`clear_func` set runs the clear function exactly once per live element, in
index order, before the block is freed. -/
theorem c7_steal_and_unref (a : GRealArray)
    (hclear : a.hasClearFunc = true) (href : a.ref_count = 1) :
    ((g_array_steal a).2.2.2 = [] ∧
     (g_array_steal a).1 = (if a.dataNull then none else some a.elts) ∧
     (g_array_steal a).2.1 = a.elts.length ∧
     (g_array_steal a).2.2.1.elts = [] ∧
     (g_array_steal a).2.2.1.dataNull = true ∧
     (g_array_steal a).2.2.1.elt_capacity = 0) ∧
    g_array_unref a =
      (none, (a.elts.enum.map fun p => Ev.clear p.1 p.2) ++ [Ev.freeSeg]) ∧
    g_array_unref (g_array_steal a).2.2.1 = (none, [Ev.freeSeg]) := by
  refine ⟨⟨rfl, rfl, rfl, rfl, rfl, rfl⟩, ?_, ?_⟩
  · simp [g_array_unref, array_free, href, hclear]
  · simp [g_array_unref, g_array_steal, array_free, href, hclear]

theorem c7_steal_and_unref_witness :
    (arrClear.hasClearFunc = true) ∧ (arrClear.ref_count = 1) ∧
    (g_array_steal arrClear).2.2.2 = [] ∧
    (g_array_steal arrClear).1 = some [5, 7] ∧
    (g_array_steal arrClear).2.2.1.elt_capacity = 0 ∧
    g_array_unref arrClear =
      (none, [Ev.clear 0 5, Ev.clear 1 7, Ev.freeSeg]) := by
  have h := c7_steal_and_unref arrClear rfl rfl
  exact ⟨rfl, rfl, h.1.1, by decide, h.1.2.2.2.2.2, by
    have h2 := h.2.1
    simpa using h2⟩

/-- Helper for C8: the length guard in the sort wrappers is redundant. -/
theorem sort_with_data_eq {β : Type} (a : GRealArray) (cmpd : Int → Int → β → Int)
    (ud : β) :
    g_array_sort_with_data a cmpd ud =
      { a with elts := a.elts.mergeSort (fun x y => decide (cmpd x y ud ≤ 0)) } := by
  unfold g_array_sort_with_data
  split
  · rfl
  · rcases a with ⟨elts, dn, ab, cap, es, zt, cl, hc, rc⟩
    simp only at *
    have hnil : elts = [] := by
      cases elts
      · rfl
      · simp at *
    subst hnil
    rw [List.mergeSort_nil]

/-- C8: the stable array sort — both `g_array_sort` and
`g_array_sort_with_data` — sorts in place into ascending order per the
comparator, is idempotent, permutes the elements, and is stable: the
subsequence of elements comparing equal to any value is preserved
verbatim. -/
theorem c8_sort_stable {β : Type} (a : GRealArray) (cmpd : Int → Int → β → Int)
    (ud : β)
    (htrans : ∀ x y z : Int, cmpd x y ud ≤ 0 → cmpd y z ud ≤ 0 → cmpd x z ud ≤ 0)
    (htotal : ∀ x y : Int, cmpd x y ud ≤ 0 ∨ cmpd y x ud ≤ 0)
    (hties : ∀ x y v : Int, cmpd x v ud = 0 → cmpd y v ud = 0 → cmpd x y ud = 0) :
    (g_array_sort_with_data a cmpd ud).elts.Pairwise (fun x y => cmpd x y ud ≤ 0) ∧
    g_array_sort_with_data (g_array_sort_with_data a cmpd ud) cmpd ud =
      g_array_sort_with_data a cmpd ud ∧
    (g_array_sort_with_data a cmpd ud).elts.Perm a.elts ∧
    (∀ v : Int,
      (g_array_sort_with_data a cmpd ud).elts.filter (fun x => decide (cmpd x v ud = 0)) =
        a.elts.filter (fun x => decide (cmpd x v ud = 0))) ∧
    (∀ cmp : Int → Int → Int, (∀ x y, cmp x y = cmpd x y ud) →
      g_array_sort a cmp = g_array_sort_with_data a cmpd ud) := by
  set le : Int → Int → Bool := fun x y => decide (cmpd x y ud ≤ 0) with hle
  have htransB : ∀ x y z : Int, le x y = true → le y z = true → le x z = true := by
    intro x y z h1 h2
    simp only [hle, decide_eq_true_eq] at *
    exact htrans x y z h1 h2
  have htotalB : ∀ x y : Int, (le x y || le y x) = true := by
    intro x y
    rcases htotal x y with h | h <;> simp [hle, h]
  have hpair : ∀ l : List Int, (l.mergeSort le).Pairwise (fun x y => cmpd x y ud ≤ 0) := by
    intro l
    have := List.sorted_mergeSort htransB htotalB l
    exact this.imp (by intro x y hxy; simpa [hle] using hxy)
  refine ⟨?_, ?_, ?_, ?_, ?_⟩
  · rw [sort_with_data_eq]
    exact hpair a.elts
  · rw [sort_with_data_eq, sort_with_data_eq]
    have hsorted : (a.elts.mergeSort le).Pairwise (fun x y => le x y = true) :=
      List.sorted_mergeSort htransB htotalB a.elts
    simp only
    rw [List.mergeSort_of_sorted hsorted]
  · rw [sort_with_data_eq]
    exact List.mergeSort_perm a.elts le
  · intro v
    rw [sort_with_data_eq]
    set p : Int → Bool := fun x => decide (cmpd x v ud = 0) with hp
    simp only
    have h1 : (a.elts.filter p).Sublist a.elts := List.filter_sublist a.elts
    have h2 : (a.elts.filter p).Pairwise (fun x y => le x y = true) := by
      refine List.pairwise_of_forall_mem_list ?_
      intro x hx y hy
      have hxv : cmpd x v ud = 0 := by
        have := (List.mem_filter.mp hx).2
        simpa [hp] using this
      have hyv : cmpd y v ud = 0 := by
        have := (List.mem_filter.mp hy).2
        simpa [hp] using this
      have : cmpd x y ud = 0 := hties x y v hxv hyv
      simp [hle, this]
    have h3 : (a.elts.filter p).Sublist (a.elts.mergeSort le) :=
      List.sublist_mergeSort htransB htotalB h2 h1
    have h4 : (a.elts.filter p).Sublist ((a.elts.mergeSort le).filter p) := by
      have := List.Sublist.filter p h3
      rwa [List.filter_filter, show (fun x => p x && p x) = p from by
        funext x; cases hpx : p x <;> simp [hpx]] at this
    have h5 : ((a.elts.mergeSort le).filter p).Perm (a.elts.filter p) :=
      (List.mergeSort_perm a.elts le).filter p
    exact (h4.eq_of_length h5.length_eq.symm).symm
  · intro cmp hcmp
    unfold g_array_sort g_sort_array g_array_sort_with_data
    have hfun : (fun x y => decide (cmp x y ≤ 0)) = le := by
      funext x y
      simp [hle, hcmp]
    rw [hfun]

theorem c8_sort_stable_witness :
    (g_array_sort_with_data arrSort (fun x y (_ : Unit) => x - y) ()).elts.Pairwise
      (fun x y : Int => x - y ≤ 0) ∧
    g_array_sort_with_data
        (g_array_sort_with_data arrSort (fun x y (_ : Unit) => x - y) ())
        (fun x y (_ : Unit) => x - y) () =
      g_array_sort_with_data arrSort (fun x y (_ : Unit) => x - y) () ∧
    (g_array_sort_with_data arrSort (fun x y (_ : Unit) => x - y) ()).elts.Perm
      arrSort.elts ∧
    (g_array_sort_with_data arrSort (fun x y (_ : Unit) => x - y) ()).elts.filter
        (fun x => decide (x - 1 = 0)) =
      arrSort.elts.filter (fun x => decide (x - 1 = 0)) ∧
    g_array_sort arrSort (fun x y => x - y) =
      g_array_sort_with_data arrSort (fun x y (_ : Unit) => x - y) () := by
  have h := c8_sort_stable arrSort (fun x y (_ : Unit) => x - y) ()
    (by intro x y z h1 h2; simp only at h1 h2 ⊢; omega)
    (by intro x y; simp only; omega)
    (by intro x y v h1 h2; simp only at h1 h2 ⊢; omega)
  exact ⟨h.1, h.2.1, h.2.2.1, h.2.2.2.1 1, h.2.2.2.2 (fun x y => x - y) (fun x y => rfl)⟩

theorem G_MAXUINT_eq : G_MAXUINT = 4294967295 := by norm_num [G_MAXUINT]

theorem G_MAXSIZE_half : G_MAXSIZE / 2 = 9223372036854775807 := by norm_num [G_MAXSIZE]

/-- For a valid element size, `max_len + zero_terminated` stays within
`G_MAXUINT`. -/
theorem maxLen_add_zt {a : GRealArray} (h1 : 1 ≤ a.elt_size) (h2 : a.elt_size ≤ G_MAXUINT) :
    maxLen a + ztNat a ≤ G_MAXUINT := by
  have hq : 1 ≤ G_MAXSIZE / 2 / a.elt_size := by
    rw [G_MAXSIZE_half]
    refine (Nat.le_div_iff_mul_le (by omega)).mpr ?_
    rw [G_MAXUINT_eq] at h2
    omega
  have hzt : ztNat a ≤ 1 := by unfold ztNat; split <;> omega
  have hmin1 : 1 ≤ min (G_MAXSIZE / 2 / a.elt_size) G_MAXUINT :=
    le_min hq (by rw [G_MAXUINT_eq]; omega)
  have hminU : min (G_MAXSIZE / 2 / a.elt_size) G_MAXUINT ≤ G_MAXUINT :=
    Nat.min_le_right _ _
  unfold maxLen
  omega

/-- Growth preserves well-formedness and guarantees the requested capacity. -/
theorem maybe_expand_wf {a a' : GRealArray} {n : Nat} (hwf : WF a)
    (h : g_array_maybe_expand a n = some a') :
    WF a' ∧ a'.elts = a.elts ∧ a'.elt_size = a.elt_size ∧
    a'.zero_terminated = a.zero_terminated ∧ a'.clear = a.clear ∧
    a'.hasClearFunc = a.hasClearFunc ∧ a'.ref_count = a.ref_count ∧
    a.elts.length + n ≤ maxLen a ∧
    a.elts.length + n + ztNat a ≤ a'.elt_capacity ∧
    (0 < n + ztNat a → a'.dataNull = false) := by
  obtain ⟨hes1, hesU, hlen, hnull, hcap⟩ := hwf
  have hg : guintSub (maxLen a) a.elts.length = maxLen a - a.elts.length :=
    guintSub_eq hlen maxLen_lt
  simp only [g_array_maybe_expand, hg] at h
  split at h
  · exact absurd h (by simp)
  case isFalse hguard =>
    have hwant : a.elts.length + n ≤ maxLen a := by omega
    split at h
    case isTrue hgrow =>
      injection h with h
      subst h
      have hwantU : a.elts.length + n + ztNat a ≤ G_MAXUINT := by
        have := maxLen_add_zt hes1 hesU
        omega
      have halloc : a.elt_size * (a.elts.length + n + ztNat a) ≤
          max (g_nearest_pow (a.elt_size * (a.elts.length + n + ztNat a))) MIN_ARRAY_SIZE :=
        le_trans (g_nearest_pow_ge _) (le_max_left _ _)
      have hdiv : a.elts.length + n + ztNat a ≤
          (max (g_nearest_pow (a.elt_size * (a.elts.length + n + ztNat a)))
            MIN_ARRAY_SIZE) / a.elt_size := by
        refine (Nat.le_div_iff_mul_le (by omega)).mpr ?_
        calc (a.elts.length + n + ztNat a) * a.elt_size
            = a.elt_size * (a.elts.length + n + ztNat a) := by ring
          _ ≤ _ := halloc
      have hcap' : a.elts.length + n + ztNat a ≤
          min ((max (g_nearest_pow (a.elt_size * (a.elts.length + n + ztNat a)))
            MIN_ARRAY_SIZE) / a.elt_size) G_MAXUINT := le_min hdiv hwantU
      refine ⟨⟨hes1, hesU, ?_, ?_, ?_⟩, rfl, rfl, rfl, rfl, rfl, rfl, hwant, hcap', ?_⟩
      · simpa [maxLen, ztNat] using hlen
      · intro hdn; simp at hdn
      · intro _
        refine le_trans ?_ hcap'
        simp only [ztNat]
        omega
      · intro _; rfl
    case isFalse hngrow =>
      injection h with h
      subst h
      refine ⟨⟨hes1, hesU, hlen, hnull, hcap⟩, rfl, rfl, rfl, rfl, rfl, rfl, hwant,
        by omega, ?_⟩
      intro hpos
      cases hdn : a.dataNull
      · rfl
      · obtain ⟨he, hc0⟩ := hnull hdn
        rw [he] at hngrow
        simp at hngrow
        omega

/-- Replacing the contents with at most as many elements preserves
well-formedness. -/
theorem wf_set_elts {a : GRealArray} (hwf : WF a) {xs : List Int}
    (hlen : xs.length ≤ a.elts.length) : WF { a with elts := xs } := by
  obtain ⟨hes1, hesU, hl, hnull, hcap⟩ := hwf
  refine ⟨hes1, hesU, ?_, ?_, ?_⟩
  · show xs.length ≤ maxLen a
    omega
  · intro hd
    have hd' : a.dataNull = true := hd
    obtain ⟨he, hc⟩ := hnull hd'
    have hx : xs = [] := by
      rw [he] at hlen
      simpa using hlen
    exact ⟨hx, hc⟩
  · intro hd
    have hd' : a.dataNull = false := hd
    show xs.length + ztNat a ≤ a.elt_capacity
    have := hcap hd'
    omega

/-- After a successful growth by `n` slots, any contents of length at most
`len + n` yield a well-formed array. -/
theorem wf_after_expand {a a1 : GRealArray} {n : Nat} (hwf : WF a)
    (he : g_array_maybe_expand a n = some a1) (hpos : 0 < n + ztNat a)
    {xs : List Int} (hxs : xs.length ≤ a.elts.length + n) :
    WF { a1 with elts := xs } := by
  obtain ⟨⟨hes1, hesU, _, _, _⟩, helts, hes, hzt, _, _, _, hmax, hcap, hdn⟩ :=
    maybe_expand_wf hwf he
  have hdn' := hdn hpos
  have hm : maxLen a1 = maxLen a := by simp [maxLen, ztNat, hes, hzt]
  have hz : ztNat a1 = ztNat a := by simp [ztNat, hzt]
  refine ⟨hes1, hesU, ?_, ?_, ?_⟩
  · show xs.length ≤ maxLen a1
    omega
  · intro hd
    have hd' : a1.dataNull = true := hd
    rw [hdn'] at hd'
    cases hd'
  · intro _
    show xs.length + ztNat a1 ≤ a1.elt_capacity
    omega

/-- `g_array_remove_range` preserves well-formedness. -/
theorem remove_range_wf {a : GRealArray} (hwf : WF a) (i n : Nat) :
    WF (g_array_remove_range a i n).1 := by
  simp only [g_array_remove_range]
  split
  · exact hwf
  · split
    · exact hwf
    · refine wf_set_elts hwf ?_
      simp only [List.length_append, List.length_take, List.length_drop]
      omega

/-- `g_array_set_size` preserves well-formedness. -/
theorem set_size_wf {a a' : GRealArray} {n : Nat} {evs : List Ev} (hwf : WF a)
    (h : g_array_set_size a n = some (a', evs)) : WF a' := by
  simp only [g_array_set_size] at h
  split at h
  case isTrue hgrow =>
    rcases he : g_array_maybe_expand a (n - a.elts.length) with _ | a1
    · rw [he] at h; cases h
    · rw [he] at h
      injection h with h
      injection h with h1 h2
      subst h1
      have helts := (maybe_expand_wf hwf he).2.1
      refine wf_after_expand hwf he (by omega) ?_
      simp only [List.length_append, List.length_replicate, helts]
      omega
  case isFalse =>
    split at h
    · injection h with h
      rw [Prod.ext_iff] at h
      obtain ⟨h1, _⟩ := h
      subst h1
      exact remove_range_wf hwf n (a.elts.length - n)
    · injection h with h
      injection h with h1 h2
      subst h1
      exact hwf

/-- `g_array_append_vals` preserves well-formedness. -/
theorem append_vals_wf {a a' : GRealArray} {xs : List Int} (hwf : WF a)
    (h : g_array_append_vals a xs = some a') : WF a' := by
  simp only [g_array_append_vals] at h
  split at h
  · injection h with h; subst h; exact hwf
  case isFalse hne =>
    rcases he : g_array_maybe_expand a xs.length with _ | a1
    · rw [he] at h; cases h
    · rw [he] at h
      injection h with h
      subst h
      have helts := (maybe_expand_wf hwf he).2.1
      refine wf_after_expand hwf he (by omega) ?_
      simp only [List.length_append, helts]
      omega

/-- `g_array_prepend_vals` preserves well-formedness. -/
theorem prepend_vals_wf {a a' : GRealArray} {xs : List Int} (hwf : WF a)
    (h : g_array_prepend_vals a xs = some a') : WF a' := by
  simp only [g_array_prepend_vals] at h
  split at h
  · injection h with h; subst h; exact hwf
  case isFalse hne =>
    rcases he : g_array_maybe_expand a xs.length with _ | a1
    · rw [he] at h; cases h
    · rw [he] at h
      injection h with h
      subst h
      have helts := (maybe_expand_wf hwf he).2.1
      refine wf_after_expand hwf he (by omega) ?_
      simp only [List.length_append, helts]
      omega

/-- `g_array_insert_vals` preserves well-formedness. -/
theorem insert_vals_wf {a a' : GRealArray} {i : Nat} {xs : List Int} (hwf : WF a)
    (h : g_array_insert_vals a i xs = some a') : WF a' := by
  simp only [g_array_insert_vals] at h
  split at h
  · injection h with h; subst h; exact hwf
  · split at h
    case isTrue hbig =>
      split at h
      · cases h
      · rename_i a1 he
        split at h
        · cases h
        · rename_i a2 evs hs
          exact append_vals_wf (set_size_wf (maybe_expand_wf hwf he).1 hs) h
    case isFalse hsmall =>
      rcases he : g_array_maybe_expand a xs.length with _ | a1
      · rw [he] at h; cases h
      · rw [he] at h
        injection h with h
        subst h
        have helts := (maybe_expand_wf hwf he).2.1
        refine wf_after_expand hwf he (by omega) ?_
        simp only [List.length_append, List.length_take, List.length_drop, helts]
        omega

/-- `g_array_remove_index` preserves well-formedness. -/
theorem remove_index_wf {a : GRealArray} (hwf : WF a) (i : Nat) :
    WF (g_array_remove_index a i).1 := by
  simp only [g_array_remove_index]
  split
  · exact hwf
  · refine wf_set_elts hwf ?_
    simp only [List.length_append, List.length_take, List.length_drop]
    omega

/-- `g_array_remove_index_fast` preserves well-formedness. -/
theorem remove_index_fast_wf {a : GRealArray} (hwf : WF a) (i : Nat) :
    WF (g_array_remove_index_fast a i).1 := by
  simp only [g_array_remove_index_fast]
  split
  · exact hwf
  · refine wf_set_elts hwf ?_
    split
    · simp only [List.length_dropLast]
      omega
    · simp only [List.length_dropLast, List.length_set]
      omega

/-- The reset state produced by `steal` and by a wrapper-preserving free is
well-formed. -/
theorem wf_reset {a : GRealArray} (hwf : WF a) (rc : Nat) :
    WF { a with elts := [], dataNull := true, allocBytes := 0, elt_capacity := 0,
                ref_count := rc } := by
  obtain ⟨hes1, hesU, _, _, _⟩ := hwf
  refine ⟨hes1, hesU, ?_, ?_, ?_⟩
  · show ([] : List Int).length ≤ maxLen a
    simp
  · intro _
    exact ⟨rfl, rfl⟩
  · intro hd
    have hd' : true = false := hd
    cases hd'

/-- `g_array_sized_new` only produces well-formed arrays. -/
theorem sized_new_wf {zt c : Bool} {es rs : Nat} {a : GRealArray}
    (h : g_array_sized_new zt c es rs = some a) : WF a := by
  simp only [g_array_sized_new] at h
  split at h
  · cases h
  case isFalse hes =>
    push_neg at hes
    obtain ⟨hes0, hesU⟩ := hes
    have hwf0 : WF (⟨[], true, 0, 0, es, zt, c, false, 1⟩ : GRealArray) := by
      refine ⟨?_, ?_, ?_, ?_, ?_⟩
      · show 1 ≤ es
        omega
      · show es ≤ G_MAXUINT
        omega
      · simp
      · intro _; exact ⟨rfl, rfl⟩
      · intro hd
        have hd' : true = false := hd
        cases hd'
    split at h
    · exact (maybe_expand_wf hwf0 h).1
    · injection h with h; subst h; exact hwf0

/-- Every `GArray` API step preserves well-formedness. -/
theorem applyOp_wf {a a' : GRealArray} {op : Op} (hwf : WF a)
    (h : applyOp a op = some a') : WF a' := by
  cases op with
  | append xs => exact append_vals_wf hwf h
  | prepend xs => exact prepend_vals_wf hwf h
  | insert i xs => exact insert_vals_wf hwf h
  | removeIndex i =>
      simp only [applyOp] at h
      injection h with h
      subst h
      exact remove_index_wf hwf i
  | removeIndexFast i =>
      simp only [applyOp] at h
      injection h with h
      subst h
      exact remove_index_fast_wf hwf i
  | removeRange i n =>
      simp only [applyOp] at h
      injection h with h
      subst h
      exact remove_range_wf hwf i n
  | setSize n =>
      simp only [applyOp] at h
      rcases hs : g_array_set_size a n with _ | p
      · rw [hs] at h; cases h
      · rw [hs] at h
        injection h with h
        rcases p with ⟨a2, evs⟩
        subst h
        exact set_size_wf hwf hs
  | steal =>
      simp only [applyOp, g_array_steal] at h
      injection h with h
      subst h
      exact wf_reset hwf a.ref_count
  | ref =>
      simp only [applyOp, g_array_ref] at h
      injection h with h
      subst h
      exact hwf
  | unref =>
      simp only [applyOp, g_array_unref, array_free] at h
      split at h
      · exact Option.noConfusion h
      · injection h with h
        subst h
        exact hwf
  | free fs =>
      simp only [applyOp, g_array_free, array_free] at h
      split at h
      · injection h with h
        subst h
        exact wf_reset hwf (a.ref_count - 1)
      · cases h
  | sort cmp =>
      simp only [applyOp, g_array_sort, g_sort_array] at h
      split at h
      · injection h with h
        subst h
        refine wf_set_elts hwf ?_
        rw [(List.mergeSort_perm a.elts _).length_eq]
      · injection h with h
        subst h
        exact hwf

/-- Every reachable array is well-formed. -/
theorem reachable_wf {a : GRealArray} (h : Reachable a) : WF a := by
  induction h with
  | create hnew => exact sized_new_wf hnew
  | step _ hop ih => exact applyOp_wf ih hop

/-- C4: for every array reachable through any sequence of `GArray`
operations, whenever the data pointer is non-NULL the stored capacity covers
the length plus the terminator slot, and a NULL data pointer implies
capacity zero. -/
theorem c4_invariant (a : GRealArray) (h : Reachable a) :
    (a.dataNull = false → a.elts.length + ztNat a ≤ a.elt_capacity) ∧
    (a.dataNull = true → a.elt_capacity = 0) := by
  obtain ⟨_, _, _, hnull, hcap⟩ := reachable_wf h
  exact ⟨hcap, fun hd => (hnull hd).2⟩

theorem c4_invariant_witness :
    (⟨[9], false, 16, 4, 4, false, false, false, 1⟩ : GRealArray).elts.length +
      ztNat ⟨[9], false, 16, 4, 4, false, false, false, 1⟩ ≤
      (⟨[9], false, 16, 4, 4, false, false, false, 1⟩ : GRealArray).elt_capacity :=
  (c4_invariant ⟨[9], false, 16, 4, 4, false, false, false, 1⟩
    (@Reachable.step ⟨[], true, 0, 0, 4, false, false, false, 1⟩
      ⟨[9], false, 16, 4, 4, false, false, false, 1⟩ (.append [9])
      (Reachable.create
        (by decide : g_array_sized_new false false 4 0 =
          some ⟨[], true, 0, 0, 4, false, false, false, 1⟩))
      (by decide))).1 rfl
